import Mathlib

/-!
# Arnold scheduling core: shallow embedding and verification

This file embeds the scheduling core of the `arnold` spaced-repetition
flashcard tool (`src/arnold/scheduler.py` together with the data model of
`src/arnold/models.py`) and proves properties of it.

Modelling conventions:
* Python `int` becomes `ℤ` (timestamps, repetition counts) or `ℕ` (lengths);
* Python `float` becomes `ℚ` (the scheduler only adds, multiplies, compares
  and takes `max` of these quantities);
* Python `round` (round-half-to-even to an integer) becomes `pyRound`;
* the fallible `apply_rating` (it raises `ValueError` on an unknown rating)
  returns an `Option`;
* the state dictionary becomes a function `String → Option CardState`,
  mirroring `state.get(card.key)`;
* Python's stable `list.sort` becomes `List.mergeSort`, which is stable, and
  `min` of a nonempty list becomes `List.min?`.
-/

namespace Arnold

/-- Round-half-to-even on rationals, modelling Python's built-in `round`
applied to a (real-valued) quantity, yielding an integer. -/
def pyRound (q : ℚ) : ℤ :=
  let f := q.floor
  let r := q - f
  if r < 1/2 then f
  else if 1/2 < r then f + 1
  else if f % 2 = 0 then f else f + 1

/-- `models.CardState`: per-card scheduling record. -/
structure CardState where
  due : ℤ
  interval_days : ℚ
  ease_factor : ℚ
  repetitions : ℤ
deriving DecidableEq, Repr

/-- `models.Card`: an immutable flashcard. -/
structure Card where
  deck_id : String
  card_id : String
  front : String
  back : String
  tags : List String
  deck_name : String
  deck_path : String
  order : ℤ × ℤ
deriving DecidableEq, Repr

/-- `models.Card.key`: the scheduling key `"{deck_id}:{card_id}"`. -/
def Card.key (c : Card) : String := c.deck_id ++ ":" ++ c.card_id

/-- `models.Deck`: a loaded deck. -/
structure Deck where
  path : String
  deck_id : String
  name : String
  cards : List Card
deriving DecidableEq, Repr

/-- `models.Selection`: the result of one scheduling decision. -/
structure Selection where
  card : Option Card
  due_count : ℕ
  new_count : ℕ
  total_count : ℕ
  next_due : Option ℤ
deriving DecidableEq, Repr

/-- `scheduler.DEFAULT_EASE = 2.5`. -/
def DEFAULT_EASE : ℚ := 5/2

/-- `scheduler.MIN_EASE = 1.3`. -/
def MIN_EASE : ℚ := 13/10

/-- `scheduler.default_state`: the initial scheduling state for a new card. -/
def default_state (now : ℤ) : CardState :=
  { due := now, interval_days := 0, ease_factor := DEFAULT_EASE, repetitions := 0 }

/-- `scheduler.apply_rating`: apply a rating to the existing state and return
the next state, or `none` for the `ValueError` raised on an unknown rating.
The local rebindings of `ease`, `reps`, `interval` mirror the Python
assignments in each branch (note that in the `easy` branch the interval is
computed from the already-incremented ease, exactly as in the source). -/
def apply_rating (existing : Option CardState) (rating : String) (now : ℤ) :
    Option CardState :=
  let state := existing.getD (default_state now)
  let ease := state.ease_factor
  let reps := state.repetitions
  let interval := state.interval_days
  if rating = "again" then
    some { due := now + 60, interval_days := 0,
           ease_factor := max MIN_EASE (ease - 1/5), repetitions := 0 }
  else if rating = "hard" then
    let ease := max MIN_EASE (ease - 3/20)
    let reps := reps + 1
    let interval : ℚ :=
      if reps = 1 then 1 else if reps = 2 then 3 else max 1 (interval * (6/5))
    some { due := now + pyRound (interval * 86400), interval_days := interval,
           ease_factor := ease, repetitions := reps }
  else if rating = "good" then
    let reps := reps + 1
    let interval : ℚ :=
      if reps = 1 then 1 else if reps = 2 then 6 else max 1 (interval * ease)
    some { due := now + pyRound (interval * 86400), interval_days := interval,
           ease_factor := ease, repetitions := reps }
  else if rating = "easy" then
    let ease := ease + 3/20
    let reps := reps + 1
    let interval : ℚ :=
      if reps = 1 then 2 else if reps = 2 then 7
      else max 1 (interval * ease * (13/10))
    some { due := now + pyRound (interval * 86400), interval_days := interval,
           ease_factor := ease, repetitions := reps }
  else
    none

/-- Lexicographic order on `order` pairs, as Python compares `tuple[int, int]`. -/
def lexLe (a b : ℤ × ℤ) : Prop := a.1 < b.1 ∨ (a.1 = b.1 ∧ a.2 ≤ b.2)

instance (a b : ℤ × ℤ) : Decidable (lexLe a b) := by unfold lexLe; infer_instance

/-- The comparison Python's sort uses on due candidates:
`key=lambda t: (t[0], t[1])`, i.e. lexicographic on `(due, order)`. -/
def dueLe (a b : ℤ × (ℤ × ℤ) × Card) : Bool :=
  decide (a.1 < b.1 ∨ (a.1 = b.1 ∧ lexLe a.2.1 b.2.1))

/-- The comparison Python's sort uses on new candidates: `key=lambda c: c.order`. -/
def ordLe (a b : Card) : Bool := decide (lexLe a.order b.order)

/-- `all_cards`: the flattening `[card for deck in decks for card in deck.cards]`. -/
def allCards (decks : List Deck) : List Card := decks.flatMap Deck.cards

/-- `due_candidates`: cards with state and `due <= now`, tagged as
`(st.due, card.order, card)`, in input order. -/
def dueCandidates (decks : List Deck) (state : String → Option CardState)
    (now : ℤ) : List (ℤ × (ℤ × ℤ) × Card) :=
  (allCards decks).filterMap fun card =>
    match state card.key with
    | none => none
    | some st => if st.due ≤ now then some (st.due, card.order, card) else none

/-- `new_candidates`: cards with no state, in input order. -/
def newCandidates (decks : List Deck) (state : String → Option CardState) :
    List Card :=
  (allCards decks).filter fun card => (state card.key).isNone

/-- `future_dues`: the `due` fields of cards with state and `due > now`. -/
def futureDues (decks : List Deck) (state : String → Option CardState)
    (now : ℤ) : List ℤ :=
  (allCards decks).filterMap fun card =>
    match state card.key with
    | none => none
    | some st => if st.due ≤ now then none else some st.due

/-- `scheduler.select_next`: pick the next card to study, preferring due cards
over new cards. -/
def select_next (decks : List Deck) (state : String → Option CardState)
    (now : ℤ) : Selection :=
  let due_sorted := (dueCandidates decks state now).mergeSort dueLe
  let new_sorted := (newCandidates decks state).mergeSort ordLe
  let chosen : Option Card :=
    match due_sorted with
    | t :: _ => some t.2.2
    | [] =>
      match new_sorted with
      | c :: _ => some c
      | [] => none
  let next_due : Option ℤ :=
    if chosen.isNone then (futureDues decks state now).min? else none
  { card := chosen, due_count := due_sorted.length,
    new_count := new_sorted.length, total_count := (allCards decks).length,
    next_due := next_due }

/-- A card is due: it has recorded state and its `due` has passed. -/
def IsDue (state : String → Option CardState) (now : ℤ) (c : Card) : Prop :=
  ∃ st, state c.key = some st ∧ st.due ≤ now

/-- A card is new: it has no recorded state. -/
def IsNew (state : String → Option CardState) (c : Card) : Prop :=
  state c.key = none

/-- Boolean form of `IsDue`, for counting. -/
def isDueB (state : String → Option CardState) (now : ℤ) (c : Card) : Bool :=
  match state c.key with
  | none => false
  | some st => decide (st.due ≤ now)

/-- Boolean form of `IsNew`, for counting. -/
def isNewB (state : String → Option CardState) (c : Card) : Bool :=
  (state c.key).isNone

/-- Fixture: a card at order `(0, 0)`, for concrete instantiations. -/
def cardA : Card :=
  { deck_id := "d", card_id := "1", front := "f1", back := "b1", tags := [],
    deck_name := "D", deck_path := "p", order := (0, 0) }

/-- Fixture: a card at order `(0, 1)`, for concrete instantiations. -/
def cardB : Card :=
  { deck_id := "d", card_id := "2", front := "f2", back := "b2", tags := [],
    deck_name := "D", deck_path := "p", order := (0, 1) }

/-- Fixture: a deck holding `cardA` then `cardB`. -/
def deckAB : Deck := { path := "p", deck_id := "d", name := "D",
                       cards := [cardA, cardB] }

/-- Fixture: the same deck with its two cards listed in the other order. -/
def deckBA : Deck := { path := "p", deck_id := "d", name := "D",
                       cards := [cardB, cardA] }

/-! ## Basic facts about `pyRound` -/

theorem rat_floor_intCast (n : ℤ) : (n : ℚ).floor = n := by
  rw [Rat.floor_def']
  simp

theorem pyRound_intCast (n : ℤ) : pyRound (n : ℚ) = n := by
  simp only [pyRound, rat_floor_intCast, sub_self]
  norm_num

theorem pyRound_eq_of_intCast {q : ℚ} {n : ℤ} (h : q = (n : ℚ)) : pyRound q = n := by
  rw [h, pyRound_intCast]

theorem le_pyRound {n : ℤ} {q : ℚ} (h : (n : ℚ) ≤ q) : n ≤ pyRound q := by
  have hf : n ≤ q.floor := Rat.le_floor.2 h
  simp only [pyRound]
  split_ifs <;> omega

/-! ## Evaluation lemmas for the branches of `apply_rating` -/

theorem apply_rating_eq_again (existing : Option CardState) (now : ℤ) :
    apply_rating existing "again" now =
      some { due := now + 60, interval_days := 0,
             ease_factor :=
               max MIN_EASE ((existing.getD (default_state now)).ease_factor - 1/5),
             repetitions := 0 } := by
  simp [apply_rating]

theorem apply_rating_eq_hard (existing : Option CardState) (now : ℤ) :
    apply_rating existing "hard" now =
      some { due := now + pyRound
               ((if (existing.getD (default_state now)).repetitions + 1 = 1 then (1:ℚ)
                 else if (existing.getD (default_state now)).repetitions + 1 = 2 then 3
                 else max 1 ((existing.getD (default_state now)).interval_days * (6/5)))
                 * 86400),
             interval_days :=
               if (existing.getD (default_state now)).repetitions + 1 = 1 then 1
               else if (existing.getD (default_state now)).repetitions + 1 = 2 then 3
               else max 1 ((existing.getD (default_state now)).interval_days * (6/5)),
             ease_factor :=
               max MIN_EASE ((existing.getD (default_state now)).ease_factor - 3/20),
             repetitions := (existing.getD (default_state now)).repetitions + 1 } := by
  simp [apply_rating]

theorem apply_rating_eq_good (existing : Option CardState) (now : ℤ) :
    apply_rating existing "good" now =
      some { due := now + pyRound
               ((if (existing.getD (default_state now)).repetitions + 1 = 1 then (1:ℚ)
                 else if (existing.getD (default_state now)).repetitions + 1 = 2 then 6
                 else max 1 ((existing.getD (default_state now)).interval_days *
                   (existing.getD (default_state now)).ease_factor)) * 86400),
             interval_days :=
               if (existing.getD (default_state now)).repetitions + 1 = 1 then 1
               else if (existing.getD (default_state now)).repetitions + 1 = 2 then 6
               else max 1 ((existing.getD (default_state now)).interval_days *
                 (existing.getD (default_state now)).ease_factor),
             ease_factor := (existing.getD (default_state now)).ease_factor,
             repetitions := (existing.getD (default_state now)).repetitions + 1 } := by
  simp [apply_rating]

theorem apply_rating_eq_easy (existing : Option CardState) (now : ℤ) :
    apply_rating existing "easy" now =
      some { due := now + pyRound
               ((if (existing.getD (default_state now)).repetitions + 1 = 1 then (2:ℚ)
                 else if (existing.getD (default_state now)).repetitions + 1 = 2 then 7
                 else max 1 ((existing.getD (default_state now)).interval_days *
                   ((existing.getD (default_state now)).ease_factor + 3/20) * (13/10)))
                 * 86400),
             interval_days :=
               if (existing.getD (default_state now)).repetitions + 1 = 1 then 2
               else if (existing.getD (default_state now)).repetitions + 1 = 2 then 7
               else max 1 ((existing.getD (default_state now)).interval_days *
                 ((existing.getD (default_state now)).ease_factor + 3/20) * (13/10)),
             ease_factor := (existing.getD (default_state now)).ease_factor + 3/20,
             repetitions := (existing.getD (default_state now)).repetitions + 1 } := by
  simp [apply_rating]

theorem good_none_eval (now : ℤ) :
    apply_rating none "good" now =
      some { due := now + 86400, interval_days := 1,
             ease_factor := DEFAULT_EASE, repetitions := 1 } := by
  rw [apply_rating_eq_good]
  simp only [Option.getD_none, default_state]
  norm_num
  exact pyRound_eq_of_intCast (by norm_num)

theorem easy_reps2_eval :
    apply_rating
        (some { due := 0, interval_days := 10, ease_factor := 5/2, repetitions := 2 })
        "easy" 0 =
      some { due := 2976480, interval_days := 689/20, ease_factor := 53/20,
             repetitions := 3 } := by
  rw [apply_rating_eq_easy]
  norm_num
  exact pyRound_eq_of_intCast (by norm_num)

/-! ## Claim theorems for the rating engine -/

/-- C5: for every timestamp `now`, `apply_rating` on a card with no existing
state and rating `good` returns a state with `repetitions = 1`,
`interval_days = 1.0` and `due = now + 86400`. -/
theorem good_on_new_card (now : ℤ) :
    ∃ s, apply_rating none "good" now = some s ∧
      s.repetitions = 1 ∧ s.interval_days = 1 ∧ s.due = now + 86400 :=
  ⟨_, good_none_eval now, rfl, rfl, rfl⟩

/-- C6: for every existing state and timestamp `now`, `apply_rating` with
rating `again` returns repetitions `0`, interval `0.0`, `due = now + 60` and
`ease_factor = max(1.3, old_ease_factor - 0.2)`. -/
theorem again_resets (st : CardState) (now : ℤ) :
    apply_rating (some st) "again" now =
      some { due := now + 60, interval_days := 0,
             ease_factor := max MIN_EASE (st.ease_factor - 1/5),
             repetitions := 0 } :=
  apply_rating_eq_again (some st) now

/-- C8: `apply_rating` fails (returns `none`, modelling the `ValueError`)
exactly when the rating is not one of the four recognized values; on the four
valid ratings it always returns a state. -/
theorem apply_rating_fails_iff (existing : Option CardState) (rating : String)
    (now : ℤ) :
    apply_rating existing rating now = none ↔
      ¬ (rating = "again" ∨ rating = "hard" ∨ rating = "good" ∨
         rating = "easy") := by
  unfold apply_rating
  split_ifs with h1 h2 h3 h4 <;> simp_all

/-- C10: for every prior state (or absence) and every rating other than
`again`, any state returned by `apply_rating` has `interval_days ≥ 1.0` and
`due ≥ now + 86400`. -/
theorem nonagain_at_least_one_day (existing : Option CardState) (rating : String)
    (now : ℤ) (s : CardState) (hr : rating ≠ "again")
    (h : apply_rating existing rating now = some s) :
    1 ≤ s.interval_days ∧ now + 86400 ≤ s.due := by
  have hday : ∀ q : ℚ, 1 ≤ q → now + 86400 ≤ now + pyRound (q * 86400) := by
    intro q hq
    have : ((86400 : ℤ) : ℚ) ≤ q * 86400 := by push_cast; nlinarith
    have := le_pyRound this
    omega
  unfold apply_rating at h
  split_ifs at h with h1 h2 h3 h4
  · exact absurd h1 hr
  · obtain rfl := Option.some.inj h
    refine ⟨?_, hday _ ?_⟩ <;>
      (dsimp only; split_ifs <;> simp [le_max_iff])
  · obtain rfl := Option.some.inj h
    refine ⟨?_, hday _ ?_⟩ <;>
      (dsimp only; split_ifs <;> simp [le_max_iff])
  · obtain rfl := Option.some.inj h
    refine ⟨?_, hday _ ?_⟩ <;>
      (dsimp only; split_ifs <;> simp [le_max_iff])

/-- Witness for C10 at `existing = none`, `rating = good`, `now = 0`. -/
theorem nonagain_at_least_one_day_witness :
    ("good" ≠ "again") ∧ ((1:ℚ) ≤ 1 ∧ (0:ℤ) + 86400 ≤ 0 + 86400) :=
  ⟨by decide,
   nonagain_at_least_one_day none "good" 0 _ (by decide) (good_none_eval 0)⟩

/-- Evaluation of `apply_rating` on a prior state whose ease factor (1.0) is
below the minimum: the `good` branch copies it unchanged. -/
theorem good_low_ease_eval :
    apply_rating
        (some { due := 0, interval_days := 0, ease_factor := 1, repetitions := 0 })
        "good" 0 =
      some { due := 86400, interval_days := 1, ease_factor := 1,
             repetitions := 1 } := by
  rw [apply_rating_eq_good]
  norm_num
  exact pyRound_eq_of_intCast (by norm_num)

/-- C1, counterexample: from the prior state
`{due: 0, interval_days: 0, ease_factor: 1.0, repetitions: 0}` the valid
rating `good` returns a state whose ease factor is `1.0 < 1.3`, so the claim
is false for unrestricted prior states. -/
theorem invariant_cex :
    apply_rating
        (some { due := 0, interval_days := 0, ease_factor := 1, repetitions := 0 })
        "good" 0 =
      some { due := 86400, interval_days := 1, ease_factor := 1,
             repetitions := 1 } ∧
    ¬ MIN_EASE ≤
      ({ due := 86400, interval_days := 1, ease_factor := 1,
         repetitions := 1 } : CardState).ease_factor :=
  ⟨good_low_ease_eval, by norm_num [MIN_EASE]⟩

/-- C1, amended: for every valid rating, every timestamp, and every prior
schedule state whose ease factor already satisfies the data-model invariant
`ease_factor ≥ 1.3` (including an absent state), the state returned by
`apply_rating` satisfies `ease_factor ≥ 1.3` and `interval_days ≥ 0`. -/
theorem apply_rating_invariant (existing : Option CardState) (rating : String)
    (now : ℤ) (s : CardState)
    (hease : ∀ st, existing = some st → MIN_EASE ≤ st.ease_factor)
    (h : apply_rating existing rating now = some s) :
    MIN_EASE ≤ s.ease_factor ∧ 0 ≤ s.interval_days := by
  have base : MIN_EASE ≤ (existing.getD (default_state now)).ease_factor := by
    cases existing with
    | none => simp [default_state]; norm_num [MIN_EASE, DEFAULT_EASE]
    | some st => exact hease st rfl
  unfold apply_rating at h
  split_ifs at h with h1 h2 h3 h4 <;> obtain rfl := Option.some.inj h
  · exact ⟨le_max_left _ _, le_refl _⟩
  · refine ⟨le_max_left _ _, ?_⟩
    dsimp only
    split_ifs <;> simp [le_max_iff]
  · refine ⟨base, ?_⟩
    dsimp only
    split_ifs <;> simp [le_max_iff]
  · refine ⟨by linarith, ?_⟩
    dsimp only
    split_ifs <;> simp [le_max_iff]

/-- Witness for the amended C1 at `existing = none`, `rating = good`,
`now = 0`. -/
theorem apply_rating_invariant_witness :
    MIN_EASE ≤ DEFAULT_EASE ∧ (0:ℚ) ≤ 1 :=
  apply_rating_invariant none "good" 0 _
    (fun st hst => by cases hst) (good_none_eval 0)

/-- C2, counterexample: from the prior state
`{due: 0, interval_days: 10.0, ease_factor: 2.5, repetitions: 2}` the rating
`easy` produces `interval_days = 34.45 = 10 * 2.65 * 1.3` — the interval is
computed from the already-incremented ease factor, not
`max(1.0, 10 * 2.5 * 1.3) = 32.5` as the claim states. -/
theorem easy_interval_cex :
    apply_rating
        (some { due := 0, interval_days := 10, ease_factor := 5/2, repetitions := 2 })
        "easy" 0 =
      some { due := 2976480, interval_days := 689/20, ease_factor := 53/20,
             repetitions := 3 } ∧
    ({ due := 2976480, interval_days := 689/20, ease_factor := 53/20,
       repetitions := 3 } : CardState).interval_days ≠
      max 1 (({ due := 0, interval_days := 10, ease_factor := 5/2,
                repetitions := 2 } : CardState).interval_days *
             ({ due := 0, interval_days := 10, ease_factor := 5/2,
                repetitions := 2 } : CardState).ease_factor * (13/10)) :=
  ⟨easy_reps2_eval, by norm_num⟩

/-- C2, amended: for every existing state with `repetitions ≥ 2` and every
timestamp, rating `easy` yields
`interval_days = max(1.0, old_interval_days * (old_ease_factor + 0.15) * 1.3)`
— the ease factor used is the incremented one — and
`due = now + round(new_interval_days * 86400)`. -/
theorem easy_high_reps (st : CardState) (now : ℤ) (s : CardState)
    (hreps : 2 ≤ st.repetitions)
    (h : apply_rating (some st) "easy" now = some s) :
    s.interval_days = max 1 (st.interval_days * (st.ease_factor + 3/20) * (13/10)) ∧
    s.due = now + pyRound (s.interval_days * 86400) := by
  rw [apply_rating_eq_easy] at h
  simp only [Option.getD_some] at h
  rw [if_neg (by omega), if_neg (by omega)] at h
  obtain rfl := Option.some.inj h
  exact ⟨rfl, rfl⟩

/-- Witness for the amended C2 at the counterexample input. -/
theorem easy_high_reps_witness :
    (2:ℤ) ≤ 2 ∧
      ((689:ℚ)/20 = max 1 (10 * ((5:ℚ)/2 + 3/20) * (13/10)) ∧
       (2976480:ℤ) = 0 + pyRound ((689:ℚ)/20 * 86400)) :=
  ⟨le_refl 2,
   easy_high_reps
     { due := 0, interval_days := 10, ease_factor := 5/2, repetitions := 2 } 0
     { due := 2976480, interval_days := 689/20, ease_factor := 53/20,
       repetitions := 3 }
     (le_refl 2) easy_reps2_eval⟩

/-! ## Order facts about the sort comparators -/

theorem dueLe_trans : ∀ a b c, dueLe a b → dueLe b c → dueLe a c := by
  intro a b c
  simp only [dueLe, lexLe, decide_eq_true_eq]
  omega

theorem dueLe_total : ∀ a b, dueLe a b || dueLe b a := by
  intro a b
  simp only [dueLe, lexLe, Bool.or_eq_true, decide_eq_true_eq]
  omega

theorem dueLe_key_eq {a b : ℤ × (ℤ × ℤ) × Card} (h1 : dueLe a b)
    (h2 : dueLe b a) : a.1 = b.1 ∧ a.2.1 = b.2.1 := by
  simp only [dueLe, lexLe, decide_eq_true_eq] at h1 h2
  refine ⟨by omega, Prod.ext ?_ ?_⟩ <;> omega

theorem ordLe_trans : ∀ a b c : Card, ordLe a b → ordLe b c → ordLe a c := by
  intro a b c
  simp only [ordLe, lexLe, decide_eq_true_eq]
  omega

theorem ordLe_total : ∀ a b : Card, ordLe a b || ordLe b a := by
  intro a b
  simp only [ordLe, lexLe, Bool.or_eq_true, decide_eq_true_eq]
  omega

theorem ordLe_order_eq {a b : Card} (h1 : ordLe a b) (h2 : ordLe b a) :
    a.order = b.order := by
  simp only [ordLe, lexLe, decide_eq_true_eq] at h1 h2
  refine Prod.ext ?_ ?_ <;> omega

/-! ## Head of a stably sorted list -/

theorem mergeSort_head_min {α : Type} {le : α → α → Bool}
    (trans : ∀ a b c, le a b → le b c → le a c)
    (total : ∀ a b, le a b || le b a)
    {l t : List α} {a : α} (h : l.mergeSort le = a :: t) :
    a ∈ l ∧ ∀ b ∈ l, le a b := by
  have hperm : (a :: t).Perm l := by
    rw [← h]; exact List.mergeSort_perm l le
  refine ⟨hperm.subset (List.mem_cons_self a t), fun b hb => ?_⟩
  have hb2 : b ∈ a :: t := hperm.mem_iff.2 hb
  rcases List.mem_cons.1 hb2 with rfl | hb3
  · have := total b b
    simpa using this
  · have hs := List.sorted_mergeSort trans total l
    rw [h] at hs
    exact (List.pairwise_cons.1 hs).1 b hb3

theorem mergeSort_ne_nil {α : Type} {le : α → α → Bool} {l : List α}
    (h : l ≠ []) : ∃ a t, l.mergeSort le = a :: t := by
  cases hm : l.mergeSort le with
  | nil =>
    have : (l.mergeSort le).length = l.length := List.length_mergeSort l
    rw [hm] at this
    exact absurd (List.length_eq_zero.1 this.symm) h
  | cons a t => exact ⟨a, t, rfl⟩

/-! ## Membership in the candidate lists -/

theorem mem_dueCandidates {decks : List Deck} {state : String → Option CardState}
    {now : ℤ} {t : ℤ × (ℤ × ℤ) × Card} :
    t ∈ dueCandidates decks state now ↔
      ∃ st, t.2.2 ∈ allCards decks ∧ state t.2.2.key = some st ∧
        st.due ≤ now ∧ t.1 = st.due ∧ t.2.1 = t.2.2.order := by
  unfold dueCandidates
  rw [List.mem_filterMap]
  constructor
  · rintro ⟨c, hc, hf⟩
    cases hs : state c.key with
    | none =>
      simp only [hs] at hf
      exact Option.noConfusion hf
    | some st =>
      simp only [hs] at hf
      by_cases hle : st.due ≤ now
      · rw [if_pos hle] at hf
        obtain rfl := Option.some.inj hf
        exact ⟨st, hc, hs, hle, rfl, rfl⟩
      · rw [if_neg hle] at hf
        exact absurd hf (by simp)
  · rintro ⟨st, hc, hs, hle, h1, h2⟩
    refine ⟨t.2.2, hc, ?_⟩
    simp only [hs]
    rw [if_pos hle]
    obtain ⟨x, y, c⟩ := t
    simp_all

theorem mem_newCandidates {decks : List Deck} {state : String → Option CardState}
    {c : Card} :
    c ∈ newCandidates decks state ↔ c ∈ allCards decks ∧ IsNew state c := by
  unfold newCandidates IsNew
  rw [List.mem_filter]
  simp [Option.isNone_iff_eq_none]

theorem mem_futureDues {decks : List Deck} {state : String → Option CardState}
    {now d : ℤ} :
    d ∈ futureDues decks state now ↔
      ∃ c ∈ allCards decks, ∃ st, state c.key = some st ∧ now < st.due ∧
        st.due = d := by
  unfold futureDues
  rw [List.mem_filterMap]
  constructor
  · rintro ⟨c, hc, hf⟩
    cases hs : state c.key with
    | none =>
      simp only [hs] at hf
      exact Option.noConfusion hf
    | some st =>
      simp only [hs] at hf
      by_cases hle : st.due ≤ now
      · rw [if_pos hle] at hf
        exact absurd hf (by simp)
      · rw [if_neg hle] at hf
        exact ⟨c, hc, st, hs, by omega, Option.some.inj hf⟩
  · rintro ⟨c, hc, st, hs, hlt, rfl⟩
    refine ⟨c, hc, ?_⟩
    simp only [hs]
    rw [if_neg (by omega)]

theorem dueCandidates_eq_nil {decks : List Deck}
    {state : String → Option CardState} {now : ℤ}
    (h : ¬ ∃ c ∈ allCards decks, IsDue state now c) :
    dueCandidates decks state now = [] := by
  unfold dueCandidates
  rw [List.filterMap_eq_nil_iff]
  intro c hc
  cases hs : state c.key with
  | none => rfl
  | some st =>
    show (if st.due ≤ now then some (st.due, c.order, c) else none) = none
    rw [if_neg]
    intro hle
    exact h ⟨c, hc, st, hs, hle⟩

theorem newCandidates_eq_nil {decks : List Deck}
    {state : String → Option CardState}
    (h : ¬ ∃ c ∈ allCards decks, IsNew state c) :
    newCandidates decks state = [] := by
  unfold newCandidates
  rw [List.filter_eq_nil_iff]
  intro c hc
  simp only [Option.isNone_iff_eq_none]
  intro hn
  exact h ⟨c, hc, hn⟩

/-! ## Projections of `select_next` -/

theorem select_next_card_eq (decks : List Deck)
    (state : String → Option CardState) (now : ℤ) :
    (select_next decks state now).card =
      match (dueCandidates decks state now).mergeSort dueLe with
      | t :: _ => some t.2.2
      | [] =>
        match (newCandidates decks state).mergeSort ordLe with
        | c :: _ => some c
        | [] => none := rfl

theorem select_next_next_due_eq (decks : List Deck)
    (state : String → Option CardState) (now : ℤ) :
    (select_next decks state now).next_due =
      if ((select_next decks state now).card).isNone then
        (futureDues decks state now).min?
      else none := rfl

/-! ## Claim theorems for the selector: counts -/

/-- C4: the returned `Selection` has `due_count` = number of cards with state
and `due ≤ now`, `new_count` = number of cards with no state, and
`total_count` = total number of cards across all decks. -/
theorem select_next_counts (decks : List Deck)
    (state : String → Option CardState) (now : ℤ) :
    (select_next decks state now).due_count =
        (allCards decks).countP (isDueB state now) ∧
    (select_next decks state now).new_count =
        (allCards decks).countP (isNewB state) ∧
    (select_next decks state now).total_count = (allCards decks).length := by
  refine ⟨?_, ?_, rfl⟩
  · show ((dueCandidates decks state now).mergeSort dueLe).length = _
    rw [List.length_mergeSort]
    unfold dueCandidates
    rw [List.length_filterMap_eq_countP]
    apply List.countP_congr
    intro c _
    unfold isDueB
    cases state c.key with
    | none => simp
    | some st => by_cases h : st.due ≤ now <;> simp [h]
  · show ((newCandidates decks state).mergeSort ordLe).length = _
    rw [List.length_mergeSort]
    unfold newCandidates
    rw [← List.countP_eq_length_filter]
    rfl

/-- C3: selection priority. If some card is due, the selected card is a due
card whose `(due, order)` key is lexicographically least among all due cards
(smallest `due`, ties by ascending `order`); otherwise, if some card is new,
the selected card is a new card of smallest `order`; otherwise no card is
selected. -/
theorem select_next_priority (decks : List Deck)
    (state : String → Option CardState) (now : ℤ) :
    ((∃ c ∈ allCards decks, IsDue state now c) →
      ∃ c st, (select_next decks state now).card = some c ∧
        c ∈ allCards decks ∧ state c.key = some st ∧ st.due ≤ now ∧
        ∀ d ∈ allCards decks, ∀ st2, state d.key = some st2 → st2.due ≤ now →
          st.due < st2.due ∨ (st.due = st2.due ∧ lexLe c.order d.order)) ∧
    ((¬ ∃ c ∈ allCards decks, IsDue state now c) →
      (∃ c ∈ allCards decks, IsNew state c) →
      ∃ c, (select_next decks state now).card = some c ∧
        c ∈ allCards decks ∧ IsNew state c ∧
        ∀ d ∈ allCards decks, IsNew state d → lexLe c.order d.order) ∧
    ((¬ ∃ c ∈ allCards decks, IsDue state now c) →
      (¬ ∃ c ∈ allCards decks, IsNew state c) →
      (select_next decks state now).card = none) := by
  refine ⟨?_, ?_, ?_⟩
  · rintro ⟨c0, hc0, st0, hs0, hle0⟩
    have hne : dueCandidates decks state now ≠ [] := by
      intro hnil
      have hm : (st0.due, c0.order, c0) ∈ dueCandidates decks state now :=
        mem_dueCandidates.2 ⟨st0, hc0, hs0, hle0, rfl, rfl⟩
      rw [hnil] at hm
      exact absurd hm (List.not_mem_nil _)
    obtain ⟨a, t, hsort⟩ := @mergeSort_ne_nil _ dueLe _ hne
    obtain ⟨hmem, hmin⟩ := mergeSort_head_min dueLe_trans dueLe_total hsort
    obtain ⟨st, hca, hsa, hlea, h1, h2⟩ := mem_dueCandidates.1 hmem
    refine ⟨a.2.2, st, ?_, hca, hsa, hlea, ?_⟩
    · rw [select_next_card_eq, hsort]
    · intro d hd st2 hs2 hle2
      have hmem2 : (st2.due, d.order, d) ∈ dueCandidates decks state now :=
        mem_dueCandidates.2 ⟨st2, hd, hs2, hle2, rfl, rfl⟩
      have hle := hmin _ hmem2
      simp only [dueLe, decide_eq_true_eq] at hle
      rw [h1, h2] at hle
      exact hle
  · rintro hnodue ⟨c0, hc0, hn0⟩
    have hdnil := dueCandidates_eq_nil hnodue
    have hne : newCandidates decks state ≠ [] := by
      intro hnil
      have hm : c0 ∈ newCandidates decks state := mem_newCandidates.2 ⟨hc0, hn0⟩
      rw [hnil] at hm
      exact absurd hm (List.not_mem_nil _)
    obtain ⟨a, t, hsort⟩ := @mergeSort_ne_nil _ ordLe _ hne
    obtain ⟨hmem, hmin⟩ := mergeSort_head_min ordLe_trans ordLe_total hsort
    obtain ⟨hca, hna⟩ := mem_newCandidates.1 hmem
    refine ⟨a, ?_, hca, hna, ?_⟩
    · rw [select_next_card_eq, hdnil, List.mergeSort_nil, hsort]
    · intro d hd hnd
      have hmem2 : d ∈ newCandidates decks state := mem_newCandidates.2 ⟨hd, hnd⟩
      have hle := hmin _ hmem2
      simpa only [ordLe, decide_eq_true_eq] using hle
  · intro hnodue hnonew
    rw [select_next_card_eq, dueCandidates_eq_nil hnodue,
        newCandidates_eq_nil hnonew, List.mergeSort_nil, List.mergeSort_nil]

/-! ## The minimum of an integer list -/

theorem int_min?_eq_some_iff {l : List ℤ} {a : ℤ} :
    l.min? = some a ↔ a ∈ l ∧ ∀ b ∈ l, a ≤ b := by
  haveI : Std.Antisymm ((· : ℤ) ≤ ·) := ⟨fun h1 h2 => le_antisymm h1 h2⟩
  exact List.min?_eq_some_iff le_refl min_choice (fun _ _ _ => le_min_iff)

theorem futureDues_eq_nil {decks : List Deck}
    {state : String → Option CardState} {now : ℤ}
    (h : ¬ ∃ c ∈ allCards decks, ∃ st, state c.key = some st ∧ now < st.due) :
    futureDues decks state now = [] := by
  unfold futureDues
  rw [List.filterMap_eq_nil_iff]
  intro c hc
  cases hs : state c.key with
  | none => rfl
  | some st =>
    show (if st.due ≤ now then none else some st.due) = none
    rw [if_pos]
    by_contra hlt
    push_neg at hlt
    exact h ⟨c, hc, st, hs, by omega⟩

/-- C7: the selector is total. When no card is chosen, `next_due` is the
minimum `due` among cards whose state is in the future (`due > now`), and is
absent when there is no such card; when a card is chosen, `next_due` is
absent. On an empty deck collection the result is the empty `Selection`. -/
theorem selector_no_failure (decks : List Deck)
    (state : String → Option CardState) (now : ℤ) :
    ((select_next decks state now).card = none →
      ((¬ ∃ c ∈ allCards decks, ∃ st, state c.key = some st ∧ now < st.due) →
        (select_next decks state now).next_due = none) ∧
      ((∃ c ∈ allCards decks, ∃ st, state c.key = some st ∧ now < st.due) →
        ∃ d, (select_next decks state now).next_due = some d ∧
          (∃ c ∈ allCards decks, ∃ st, state c.key = some st ∧ now < st.due ∧
            st.due = d) ∧
          ∀ c ∈ allCards decks, ∀ st, state c.key = some st → now < st.due →
            d ≤ st.due)) ∧
    (∀ c, (select_next decks state now).card = some c →
      (select_next decks state now).next_due = none) ∧
    select_next [] state now =
      { card := none, due_count := 0, new_count := 0, total_count := 0,
        next_due := none } := by
  have hempty : select_next [] state now =
      { card := none, due_count := 0, new_count := 0, total_count := 0,
        next_due := none } := by
    have h1 : dueCandidates [] state now = [] := rfl
    have h2 : newCandidates [] state = [] := rfl
    have h3 : futureDues [] state now = [] := rfl
    simp [select_next, h1, h2, h3, List.mergeSort_nil, allCards]
  refine ⟨?_, ?_, hempty⟩
  · intro hcard
    have hnd : (select_next decks state now).next_due =
        (futureDues decks state now).min? := by
      rw [select_next_next_due_eq, hcard]
      simp
    constructor
    · intro hnofut
      rw [hnd, futureDues_eq_nil hnofut]
      simp
    · rintro ⟨c0, hc0, st0, hs0, hlt0⟩
      have hne : futureDues decks state now ≠ [] := by
        intro hnil
        have hm : st0.due ∈ futureDues decks state now :=
          mem_futureDues.2 ⟨c0, hc0, st0, hs0, hlt0, rfl⟩
        rw [hnil] at hm
        exact absurd hm (List.not_mem_nil _)
      obtain ⟨d, hd⟩ : ∃ d, (futureDues decks state now).min? = some d := by
        cases hmin : (futureDues decks state now).min? with
        | none =>
          rw [List.min?_eq_none_iff] at hmin
          exact absurd hmin hne
        | some d => exact ⟨d, rfl⟩
      obtain ⟨hdm, hdmin⟩ := int_min?_eq_some_iff.1 hd
      obtain ⟨c1, hc1, st1, hs1, hlt1, hdue1⟩ := mem_futureDues.1 hdm
      refine ⟨d, by rw [hnd, hd], ⟨c1, hc1, st1, hs1, hlt1, hdue1⟩, ?_⟩
      intro c hc st hs hlt
      exact hdmin _ (mem_futureDues.2 ⟨c, hc, st, hs, hlt, rfl⟩)
  · intro c hcard
    rw [select_next_next_due_eq, hcard]
    simp

/-! ## Permutation invariance of selection -/

theorem selection_ext {s1 s2 : Selection} (h1 : s1.card = s2.card)
    (h2 : s1.due_count = s2.due_count) (h3 : s1.new_count = s2.new_count)
    (h4 : s1.total_count = s2.total_count) (h5 : s1.next_due = s2.next_due) :
    s1 = s2 := by
  cases s1
  cases s2
  simp_all

theorem min?_perm_int {l1 l2 : List ℤ} (h : l1.Perm l2) : l1.min? = l2.min? := by
  cases h1 : l1.min? with
  | none =>
    rw [List.min?_eq_none_iff] at h1
    subst h1
    rw [List.Perm.eq_nil h.symm]
    rfl
  | some a =>
    obtain ⟨hmem, hmin⟩ := int_min?_eq_some_iff.1 h1
    exact (int_min?_eq_some_iff.2
      ⟨h.subset hmem, fun b hb => hmin b (h.mem_iff.2 hb)⟩).symm

theorem mergeSort_head_eq {α : Type} {le : α → α → Bool}
    (trans : ∀ a b c, le a b → le b c → le a c)
    (total : ∀ a b, le a b || le b a)
    {l1 l2 : List α} (hperm : l1.Perm l2)
    (anti : ∀ a ∈ l1, ∀ b ∈ l1, le a b → le b a → a = b) :
    (l1.mergeSort le = [] ∧ l2.mergeSort le = []) ∨
    ∃ a t1 t2, l1.mergeSort le = a :: t1 ∧ l2.mergeSort le = a :: t2 := by
  cases h1 : l1.mergeSort le with
  | nil =>
    left
    have hl1 : l1 = [] := by
      have hlen : (l1.mergeSort le).length = l1.length := List.length_mergeSort l1
      rw [h1] at hlen
      exact List.length_eq_zero.1 hlen.symm
    have hl2 : l2 = [] := by
      subst hl1
      exact (List.Perm.eq_nil hperm.symm)
    exact ⟨rfl, by rw [hl2, List.mergeSort_nil]⟩
  | cons a t1 =>
    right
    have hne2 : l2 ≠ [] := by
      intro h
      subst h
      have hl1 : l1 = [] := List.length_eq_zero.1 (by rw [hperm.length_eq]; rfl)
      subst hl1
      rw [List.mergeSort_nil] at h1
      exact List.noConfusion h1
    obtain ⟨b, t2, h2⟩ := @mergeSort_ne_nil _ le _ hne2
    obtain ⟨hmem1, hmin1⟩ := mergeSort_head_min trans total h1
    obtain ⟨hmem2, hmin2⟩ := mergeSort_head_min trans total h2
    have hb1 : b ∈ l1 := hperm.mem_iff.2 hmem2
    have hab : le a b := hmin1 b hb1
    have hba : le b a := hmin2 a (hperm.mem_iff.1 hmem1)
    obtain rfl : a = b := anti a hmem1 b hb1 hab hba
    exact ⟨a, t1, t2, rfl, h2⟩

/-- C9: `select_next` depends only on the multiset of cards. For two deck
collections whose flattened card lists are permutations of each other, with
all cards having pairwise distinct `order` values, and with the same state
mapping and timestamp, the resulting `Selection` is identical (this subsumes
idempotence, taking the two collections equal). -/
theorem select_next_perm_invariant (decks1 decks2 : List Deck)
    (state : String → Option CardState) (now : ℤ)
    (hperm : (allCards decks1).Perm (allCards decks2))
    (hdist : (allCards decks1).Pairwise (fun a b => a.order ≠ b.order)) :
    select_next decks1 state now = select_next decks2 state now := by
  have hdueP : (dueCandidates decks1 state now).Perm
      (dueCandidates decks2 state now) := hperm.filterMap _
  have hnewP : (newCandidates decks1 state).Perm (newCandidates decks2 state) :=
    hperm.filter _
  have hfutP : (futureDues decks1 state now).Perm (futureDues decks2 state now) :=
    hperm.filterMap _
  have hsymm : Symmetric (fun a b : Card => a.order ≠ b.order) :=
    fun _ _ h he => h he.symm
  have antidue : ∀ a ∈ dueCandidates decks1 state now,
      ∀ b ∈ dueCandidates decks1 state now, dueLe a b → dueLe b a → a = b := by
    intro a ha b hb hab hba
    obtain ⟨hkey1, hkey2⟩ := dueLe_key_eq hab hba
    obtain ⟨sta, hca, _, _, _, ha2⟩ := mem_dueCandidates.1 ha
    obtain ⟨stb, hcb, _, _, _, hb2⟩ := mem_dueCandidates.1 hb
    have hord : a.2.2.order = b.2.2.order := by rw [← ha2, ← hb2, hkey2]
    have hcards : a.2.2 = b.2.2 := by
      by_contra hne
      exact (hdist.forall hsymm hca hcb hne) hord
    exact Prod.ext hkey1 (Prod.ext hkey2 hcards)
  have antinew : ∀ a ∈ newCandidates decks1 state,
      ∀ b ∈ newCandidates decks1 state, ordLe a b → ordLe b a → a = b := by
    intro a ha b hb hab hba
    have hord := ordLe_order_eq hab hba
    obtain ⟨hca, _⟩ := mem_newCandidates.1 ha
    obtain ⟨hcb, _⟩ := mem_newCandidates.1 hb
    by_contra hne
    exact (hdist.forall hsymm hca hcb hne) hord
  have hcard : (select_next decks1 state now).card =
      (select_next decks2 state now).card := by
    rw [select_next_card_eq, select_next_card_eq]
    rcases mergeSort_head_eq dueLe_trans dueLe_total hdueP antidue with
      ⟨hd1, hd2⟩ | ⟨a, t1, t2, hd1, hd2⟩
    · rcases mergeSort_head_eq ordLe_trans ordLe_total hnewP antinew with
        ⟨hn1, hn2⟩ | ⟨c, u1, u2, hn1, hn2⟩
      · rw [hd1, hd2, hn1, hn2]
      · rw [hd1, hd2, hn1, hn2]
    · rw [hd1, hd2]
  refine selection_ext hcard ?_ ?_ hperm.length_eq ?_
  · show ((dueCandidates decks1 state now).mergeSort dueLe).length =
      ((dueCandidates decks2 state now).mergeSort dueLe).length
    rw [List.length_mergeSort, List.length_mergeSort]
    exact hdueP.length_eq
  · show ((newCandidates decks1 state).mergeSort ordLe).length =
      ((newCandidates decks2 state).mergeSort ordLe).length
    rw [List.length_mergeSort, List.length_mergeSort]
    exact hnewP.length_eq
  · rw [select_next_next_due_eq, select_next_next_due_eq, hcard,
      min?_perm_int hfutP]

/-- Witness for C9: the same two all-new cards presented in both iteration
orders yield the same `Selection`. -/
theorem select_next_perm_invariant_witness :
    select_next [deckAB] (fun _ => none) 0 =
      select_next [deckBA] (fun _ => none) 0 :=
  select_next_perm_invariant [deckAB] [deckBA] (fun _ => none) 0
    (List.Perm.swap cardB cardA []) (by decide)

end Arnold
